import Mathlib

/-!
Verification of `statik` (src/statik.c), a command-line static-site generator
draft.  The development shallowly embeds the two pieces of the program:

* the whole-file loader `readall`, which loads a file of unknown size into a
  dynamically grown, NUL-terminated memory region; and
* the `main` argument surface (getopt-based flag parsing, positional-argument
  handling, usage/version output, exit codes).

Bytes are modelled as `Nat`, memory regions as `List Nat`.  A successful
POSIX `read` of `n` bytes from a regular file at offset `off` returns
`min n (size - off)` bytes, which is the semantics used here; the fatal
error paths of the C code (open failure, allocation failure) terminate the
process before any of the behaviour specified below, so the loader is
modelled on its success path, taking the file contents as input.
-/

namespace Statik

/-- READ_SIZE from statik.c: the number of bytes requested per `read` call. -/
def READ_SIZE : Nat := 2048

/-- BUFFER_SIZE from statik.c: the initial `malloc` capacity of the loader. -/
def BUFFER_SIZE : Nat := 4096

/-- VERSION from statik.c. -/
def VERSION : Nat := 1

/-- Value used for bytes of allocated but not yet written memory (`malloc`
and the tail of a growing `realloc` leave such bytes unspecified; the fixed
value 171 stands for that junk and is never relied upon). -/
def junkByte : Nat := 171

/-- Writing `bytes` into a memory region `buf` at offset `off`
(the effect of `read(fd, buf+off, ...)` returning `bytes.length`, or of
`buf[off] = c`).  Meaningful when `off + bytes.length ≤ buf.length`,
which is proved wherever the C code performs such a write. -/
def writeBytes (buf : List Nat) (off : Nat) (bytes : List Nat) : List Nat :=
  buf.take off ++ bytes ++ buf.drop (off + bytes.length)

/-- The local state of `readall`'s read loop: `nch` (bytes read so far),
`size` (current capacity), `buf` (the allocated region, of length `size`),
plus a ghost counter `grows` of how many capacity-doubling `realloc`s have
happened (not a C variable; used to state growth-timing properties). -/
structure LoopState where
  nch : Nat
  size : Nat
  buf : List Nat
  grows : Nat
deriving DecidableEq

/-- The chunk obtained by `read(fd, buf+nch, READ_SIZE)` when the file
contents are `data`: the next `min READ_SIZE (data.length - nch)` bytes. -/
def readChunk (data : List Nat) (nch : Nat) : List Nat :=
  (data.drop nch).take READ_SIZE

/-- One iteration of the `while` body of `readall` (statik.c:46-56), entered
after a read returned the non-empty `readChunk data st.nch`:
the read stored the chunk at `buf+nch`, then `nch += len`, and if
`size - nch <= READ_SIZE` the capacity doubles and the buffer is
reallocated, preserving its contents. -/
def readStep (data : List Nat) (st : LoopState) : LoopState :=
  let chunk := readChunk data st.nch
  let buf1 := writeBytes st.buf st.nch chunk
  let nch1 := st.nch + chunk.length
  if st.size - nch1 ≤ READ_SIZE then
    ⟨nch1, st.size * 2, buf1 ++ List.replicate (st.size * 2 - buf1.length) junkByte,
      st.grows + 1⟩
  else
    ⟨nch1, st.size, buf1, st.grows⟩

/-- The read loop of `readall`, iterated with fuel.  The loop runs until a
read returns zero bytes; since every other iteration consumes at least one
byte of `data`, `data.length + 1 - st.nch` iterations always suffice
(proved as part of `readLoopF_inv` below), so the fuel never runs out where
the loop is used. -/
def readLoopF : Nat → List Nat → LoopState → LoopState
  | 0, _, st => st
  | fuel + 1, data, st =>
    if readChunk data st.nch = [] then st
    else readLoopF fuel data (readStep data st)

/-- The state of `readall` right after `malloc(sizeof(char) * size)` with
`size = BUFFER_SIZE`, `nch = 0`. -/
def initState : LoopState :=
  ⟨0, BUFFER_SIZE, List.replicate BUFFER_SIZE junkByte, 0⟩

/-- The loop state of `readall` when the read loop exits (a read returned
zero bytes), for a file with contents `data`. -/
def readallFinal (data : List Nat) : LoopState :=
  readLoopF (data.length + 1) data initState

/-- The value of `nch` when the loop exits: the total number of bytes read,
i.e. the logical length of the loaded data (the terminator excluded). -/
def readallLen (data : List Nat) : Nat :=
  (readallFinal data).nch

/-- The buffer returned by `readall` (statik.c:57-59): after the loop,
`realloc(buf, sizeof(char) * nch + 1)` shrinks the region to `nch + 1`
bytes, and then `buf[nch++] = '\0'` writes the terminator.  This value —
and nothing else — is what `readall` returns. -/
def readall (data : List Nat) : List Nat :=
  let st := readallFinal data
  writeBytes (st.buf.take (st.nch + 1)) st.nch [0]

/-- The loop-entry states of `readall`'s read loop, in order (the state at
each evaluation of the `while` condition), for a file with contents
`data`.  Mirrors `readLoopF`. -/
def loopTraceF : Nat → List Nat → LoopState → List LoopState
  | 0, _, st => [st]
  | fuel + 1, data, st =>
    if readChunk data st.nch = [] then [st]
    else st :: loopTraceF fuel data (readStep data st)

/-- The loop-entry states of `readall` on input `data`. -/
def loopTrace (data : List Nat) : List LoopState :=
  loopTraceF (data.length + 1) data initState

/-- Observable memory-management and read events of a `readall` run, used to
state ordering properties (what happens before what). -/
inductive Ev where
  | alloc (size : Nat)
  | read (len : Nat)
  | grow (newSize : Nat)
  | shrink (newSize : Nat)
  | writeTerm (off : Nat)
deriving DecidableEq

/-- Events of one loop iteration: the read of the chunk, followed by the
doubling `realloc` when `size - (nch + len) <= READ_SIZE`. -/
def stepEvents (data : List Nat) (st : LoopState) : List Ev :=
  if st.size - (st.nch + (readChunk data st.nch).length) ≤ READ_SIZE then
    [Ev.read (readChunk data st.nch).length, Ev.grow (st.size * 2)]
  else
    [Ev.read (readChunk data st.nch).length]

/-- Events of the read loop (mirrors `readLoopF`); the final zero-byte read
that exits the loop is recorded as `Ev.read 0`. -/
def loopEventsF : Nat → List Nat → LoopState → List Ev
  | 0, _, _ => []
  | fuel + 1, data, st =>
    if readChunk data st.nch = [] then [Ev.read 0]
    else stepEvents data st ++ loopEventsF fuel data (readStep data st)

/-- The full event sequence of `readall` on input `data`, in program order
(statik.c:39-58): `malloc(BUFFER_SIZE)`; the read loop; the shrinking
`realloc(buf, nch + 1)`; and only then the terminator write `buf[nch] = 0`. -/
def readallEvents (data : List Nat) : List Ev :=
  Ev.alloc BUFFER_SIZE ::
    (loopEventsF (data.length + 1) data initState ++
      [Ev.shrink (readallLen data + 1), Ev.writeTerm (readallLen data)])

/-- Recognizer for terminator-write events. -/
def isTermEv : Ev → Bool
  | Ev.writeTerm _ => true
  | _ => false

/-- Recognizer for shrinking-realloc events. -/
def isShrinkEv : Ev → Bool
  | Ev.shrink _ => true
  | _ => false

/-- The portion of a returned buffer that a C caller of `readall` can
consume without a separate length: the bytes up to the first NUL (the
C-string view, what `strlen`/`printf %s` see).  `readall` returns a bare
`char *`, so this view is the only length information available to its
caller. -/
def cstrView (buf : List Nat) : List Nat :=
  buf.takeWhile (fun b => b != 0)

/-! ## The command-line surface of `main` (statik.c:62-122)

`main` parses options with `getopt(argc, argv, "rb:l:vh")` and then checks
`argc - optind`, using `argv[argc-1]` as destination and `argv[argc-2]` as
source when two positionals are present.  `getopt` is modelled with its
POSIX behaviour (no argument permutation): options are taken from
successive `argv` elements that start with `-`, characters of one element
form a cluster, `b` and `l` consume an argument (the remainder of the
element, or the next element), a lone `-`, a non-option element, or the
end of `argv` stops the scan, and `--` is skipped and stops the scan.
For an option character not in the option string, `getopt` returns `?`,
stores the character in `optopt`, and — since `opterr` is untouched and
the option string does not start with `:` — prints a diagnostic naming the
offending character on stderr; likewise for a missing option argument. -/

/-- A command-line argument (one `argv` element), as a character list. -/
abbrev Arg := List Char

/-- One result of a `getopt` call, as consumed by the `switch` in `main`:
`flag` is `r`; `optArg` is `b` or `l` with its argument; `version`/`help`
are `v`/`h`; `unknown`/`missingArg` are the two conditions for which
`getopt` returns `?` (with the offending character in `optopt`). -/
inductive Opt where
  | flag (c : Char)
  | optArg (c : Char) (a : Arg)
  | version
  | help
  | unknown (c : Char)
  | missingArg (c : Char)
deriving DecidableEq

/-- Results for the option characters of one `-...` cluster, against the
option string `"rb:l:vh"`.  Returns the results for the characters handled
inside the element, and `some c` when the last character `c` requires an
argument that must come from the next `argv` element. -/
def clusterOpts : List Char → List Opt × Option Char
  | [] => ([], none)
  | c :: cs =>
    if c = 'b' ∨ c = 'l' then
      match cs with
      | [] => ([], some c)
      | _ :: _ => ([Opt.optArg c cs], none)
    else
      let o := if c = 'r' then Opt.flag 'r'
               else if c = 'v' then Opt.version
               else if c = 'h' then Opt.help
               else Opt.unknown c
      let r := clusterOpts cs
      (o :: r.1, r.2)

/-- The whole `getopt` scan over the arguments after the program name:
the sequence of results `getopt` would return until `-1`, together with
the remaining (positional) arguments `argv[optind..]` at that point. -/
def getoptAll : List Arg → List Opt × List Arg
  | [] => ([], [])
  | a :: rest =>
    match a with
    | ['-'] => ([], a :: rest)
    | ['-', '-'] => ([], rest)
    | '-' :: c :: cs =>
      match clusterOpts (c :: cs) with
      | (os, none) =>
        let r := getoptAll rest
        (os ++ r.1, r.2)
      | (os, some oc) =>
        match rest with
        | [] => (os ++ [Opt.missingArg oc], [])
        | b :: rest2 =>
          let r := getoptAll rest2
          (os ++ Opt.optArg oc b :: r.1, r.2)
    | _ => ([], a :: rest)

/-- Output-relevant events of a `main` run: a line printed to stdout
(`printf`), a diagnostic printed to stderr (by `getopt`), or a file opened
and read by `readall`. -/
inductive OutEv where
  | out (s : List Char)
  | err (s : List Char)
  | fileRead (path : List Char)
deriving DecidableEq

/-- The text printed by `usage()` (statik.c:17-20). -/
def usageLine : List Char :=
  "usage: statik [-r] [-b template] [-l template] [-v] [-h] [src] dest".toList

/-- The line `printf("version: %d\n", VERSION)` prints (statik.c:81). -/
def versionLine : List Char :=
  "version: ".toList ++ Nat.toDigits 10 VERSION

/-- The line `printf("Unkown flag: %c\n", opt)` prints in the `default`
branch (statik.c:89): `opt` there is the `?` that `getopt` returned, so the
printed character is always `?`, not the offending flag. -/
def unknownFlagLine : List Char :=
  "Unkown flag: ?".toList

/-- The usage-error line of statik.c:97. -/
def wrongArgsLine : List Char :=
  "Wrong amount of arguments.".toList

/-- The stderr diagnostic `getopt` emits for an option character not in the
option string (quotes around the character elided). -/
def invalidOptDiag (c : Char) : List Char :=
  "statik: invalid option -- ".toList ++ [c]

/-- The stderr diagnostic `getopt` emits for an option lacking its required
argument. -/
def missingArgDiag (c : Char) : List Char :=
  "statik: option requires an argument -- ".toList ++ [c]

/-- The configuration `main` accumulates over the `getopt` loop:
`recursive` (`-r`), and the template paths `bd` (`-b`) and `ln` (`-l`). -/
structure Cfg where
  recursive : Bool
  bd : Option Arg
  ln : Option Arg
deriving DecidableEq

/-- The configuration at the top of `main`: `recursive = 0`,
`bd = ln = NULL`. -/
def initCfg : Cfg := ⟨false, none, none⟩

/-- The `while/switch` of `main` (statik.c:69-93) consuming `getopt`
results: `r`, `b`, `l` update the configuration and continue; `v` prints
the version and exits 0; `h` prints usage and exits 0; `?` (unknown flag
or missing argument) follows `getopt`'s stderr diagnostic with
`Unkown flag: ?` and the usage text, and exits 1. -/
def consumeOpts : List Opt → Cfg → Cfg ⊕ (List OutEv × Nat)
  | [], cfg => Sum.inl cfg
  | o :: os, cfg =>
    match o with
    | Opt.flag _ => consumeOpts os { cfg with recursive := true }
    | Opt.optArg c a =>
      if c = 'b' then consumeOpts os { cfg with bd := some a }
      else consumeOpts os { cfg with ln := some a }
    | Opt.version => Sum.inr ([OutEv.out versionLine], 0)
    | Opt.help => Sum.inr ([OutEv.out usageLine], 0)
    | Opt.unknown c =>
      Sum.inr ([OutEv.err (invalidOptDiag c), OutEv.out unknownFlagLine,
        OutEv.out usageLine], 1)
    | Opt.missingArg c =>
      Sum.inr ([OutEv.err (missingArgDiag c), OutEv.out unknownFlagLine,
        OutEv.out usageLine], 1)

/-- Option results on which `main`'s switch exits the process. -/
def isExiting : Opt → Bool
  | Opt.flag _ => false
  | Opt.optArg _ _ => false
  | _ => true

/-- The `src` default `"."` (statik.c:65). -/
def defaultSrc : Arg := ['.']

/-- The `readall` calls `main` performs after argument handling
(statik.c:110-113): one file open/read per supplied template path. -/
def templateReads (cfg : Cfg) : List OutEv :=
  (match cfg.bd with | some p => [OutEv.fileRead p] | none => []) ++
    (match cfg.ln with | some p => [OutEv.fileRead p] | none => [])

/-- The observable outcome of a `main` run: printed/read events, the exit
code, and — when the run reaches the end of `main` — the final
configuration with the resolved `src` and `dest`. -/
structure MainRes where
  evs : List OutEv
  code : Nat
  final : Option (Cfg × Arg × Arg)
deriving DecidableEq

/-- `main` (statik.c:62-122) on an argument vector `argv` (program name
included, as in C): run the `getopt` loop; if it exits, that is the
outcome.  Otherwise require `1 ≤ argc - optind ≤ 2` (else print the usage
error to stdout and exit 1 without touching any file), take
`dest = argv[argc-1]`, take `src = argv[argc-2]` when two positionals are
present (default `"."`), read the supplied templates, and exit 0. -/
def main (argv : List Arg) : MainRes :=
  match consumeOpts (getoptAll (argv.drop 1)).1 initCfg with
  | Sum.inr r => ⟨r.1, r.2, none⟩
  | Sum.inl cfg =>
    if 2 < (getoptAll (argv.drop 1)).2.length ∨ (getoptAll (argv.drop 1)).2.length < 1 then
      ⟨[OutEv.out wrongArgsLine, OutEv.out usageLine], 1, none⟩
    else
      ⟨templateReads cfg, 0,
        some (cfg,
          (if (getoptAll (argv.drop 1)).2.length = 2 then
            (argv.reverse.drop 1).headD defaultSrc
          else defaultSrc),
          argv.reverse.headD [])⟩

/-- The characters a run prints (stdout and stderr lines concatenated). -/
def evChars : OutEv → List Char
  | OutEv.out s => s
  | OutEv.err s => s
  | OutEv.fileRead _ => []

/-- All characters printed by a list of events. -/
def outputChars (evs : List OutEv) : List Char :=
  (evs.map evChars).flatten

/-! ## A second read-loop definition, taken from the specification text

Used only to compare the code against the specification's description of
the algorithm (claim C4). -/

/-- The read loop exactly as the specification §4.1 words it, on the
abstract state (total bytes read, capacity): repeatedly read chunks of
`READ_SIZE` bytes, accumulating the total; after each read that returns
more than zero bytes, if the remaining headroom (capacity minus total) is
at or below one chunk size, double the capacity; stop when a read returns
zero bytes. -/
def specLoopF : Nat → Nat → Nat → Nat → Nat × Nat
  | 0, _, total, cap => (total, cap)
  | fuel + 1, fsize, total, cap =>
    if min READ_SIZE (fsize - total) = 0 then (total, cap)
    else if cap - (total + min READ_SIZE (fsize - total)) ≤ READ_SIZE then
      specLoopF fuel fsize (total + min READ_SIZE (fsize - total)) (cap * 2)
    else
      specLoopF fuel fsize (total + min READ_SIZE (fsize - total)) cap

/-- The specification's loader loop on a file of size `fsize`, starting
from total 0 and the initial capacity of `BUFFER_SIZE` bytes. -/
def specLoader (fsize : Nat) : Nat × Nat :=
  specLoopF (fsize + 1) fsize 0 BUFFER_SIZE

/-- The property claimed of the finalization order: every shrinking
`realloc` happens only after a terminator write. -/
def shrinkOnlyAfterTerm (evs : List Ev) : Prop :=
  ∀ (i s : Nat), evs[i]? = some (Ev.shrink s) →
    ∃ (j o : Nat), j < i ∧ evs[j]? = some (Ev.writeTerm o)

/-- The loop invariant of `readall`'s read loop, holding at every
evaluation of the `while` condition: the buffer length is the capacity,
at most the whole file has been read, the headroom exceeds one chunk
(`nch + READ_SIZE < size`), and the first `nch` buffer bytes are the first
`nch` file bytes. -/
structure Inv (data : List Nat) (st : LoopState) : Prop where
  hbuf : st.buf.length = st.size
  hle : st.nch ≤ data.length
  hroom : st.nch + READ_SIZE < st.size
  hpre : st.buf.take st.nch = data.take st.nch

/-! ## Helper lemmas about the read loop -/

theorem length_readChunk (data : List Nat) (n : Nat) :
    (readChunk data n).length = min READ_SIZE (data.length - n) := by
  simp [readChunk]

theorem writeBytes_length (buf : List Nat) (off : Nat) (bytes : List Nat)
    (h : off + bytes.length ≤ buf.length) :
    (writeBytes buf off bytes).length = buf.length := by
  simp only [writeBytes, List.length_append, List.length_take, List.length_drop]
  omega

theorem writeBytes_take (buf : List Nat) (off : Nat) (bytes : List Nat)
    (h : off ≤ buf.length) :
    (writeBytes buf off bytes).take (off + bytes.length) =
      buf.take off ++ bytes := by
  unfold writeBytes
  exact List.take_left' (by simp; omega)

theorem inv_init (data : List Nat) : Inv data initState :=
  ⟨by simp [initState], by simp [initState], by decide, by simp [initState]⟩

theorem readStep_grows_ge (data : List Nat) (st : LoopState) :
    st.grows ≤ (readStep data st).grows := by
  dsimp only [readStep]
  split <;> simp

theorem readStep_grows_grow (data : List Nat) (st : LoopState)
    (hg : st.size - (st.nch + (readChunk data st.nch).length) ≤ READ_SIZE) :
    (readStep data st).grows = st.grows + 1 := by
  simp only [readStep]
  rw [if_pos hg]

theorem readStep_inv (data : List Nat) (st : LoopState) (h : Inv data st)
    (hne : readChunk data st.nch ≠ []) :
    Inv data (readStep data st) ∧ st.nch < (readStep data st).nch := by
  obtain ⟨hbuf, hle, hroom, hpre⟩ := h
  have hlen := length_readChunk data st.nch
  have hpos : 0 < (readChunk data st.nch).length := List.length_pos.mpr hne
  have hlle : (readChunk data st.nch).length ≤ READ_SIZE := by omega
  have hnle : st.nch + (readChunk data st.nch).length ≤ data.length := by omega
  have hwlen : (writeBytes st.buf st.nch (readChunk data st.nch)).length = st.buf.length :=
    writeBytes_length _ _ _ (by omega)
  have htake : (writeBytes st.buf st.nch (readChunk data st.nch)).take
      (st.nch + (readChunk data st.nch).length) =
      st.buf.take st.nch ++ readChunk data st.nch := writeBytes_take _ _ _ (by omega)
  have hdata : data.take (st.nch + (readChunk data st.nch).length) =
      data.take st.nch ++ readChunk data st.nch := by
    rw [List.take_add]
    congr 1
    rw [readChunk, List.take_eq_take]
    simp only [List.length_take, List.length_drop]
    omega
  by_cases hg : st.size - (st.nch + (readChunk data st.nch).length) ≤ READ_SIZE
  · refine ⟨?_, ?_⟩
    · simp only [readStep, if_pos hg]
      constructor
      · simp only [List.length_append, List.length_replicate, hwlen, hbuf]; omega
      · simpa using hnle
      · simp only; omega
      · simp only
        rw [List.take_append_of_le_length (by omega), htake, hpre, hdata]
    · simp only [readStep, if_pos hg]; omega
  · refine ⟨?_, ?_⟩
    · simp only [readStep, if_neg hg]
      constructor
      · simp only [hwlen, hbuf]
      · simpa using hnle
      · simp only; omega
      · simp only
        rw [htake, hpre, hdata]
    · simp only [readStep, if_neg hg]; omega

theorem readLoopF_inv : ∀ (fuel : Nat) (data : List Nat) (st : LoopState),
    Inv data st → data.length ≤ st.nch + fuel →
    Inv data (readLoopF fuel data st) ∧ (readLoopF fuel data st).nch = data.length := by
  intro fuel
  induction fuel with
  | zero =>
    intro data st h hf
    have := h.hle
    simp only [readLoopF]
    exact ⟨h, by omega⟩
  | succ n ih =>
    intro data st h hf
    by_cases hc : readChunk data st.nch = []
    · have hlen := length_readChunk data st.nch
      rw [hc] at hlen
      simp only [List.length_nil] at hlen
      have hRS : 0 < READ_SIZE := by decide
      have hle := h.hle
      have heq : st.nch = data.length := by omega
      simp only [readLoopF, hc, if_pos]
      exact ⟨h, heq.symm ▸ rfl⟩
    · simp only [readLoopF, if_neg hc]
      obtain ⟨hi, hlt⟩ := readStep_inv data st h hc
      exact ih data (readStep data st) hi (by omega)

theorem loopTraceF_inv : ∀ (fuel : Nat) (data : List Nat) (st : LoopState),
    Inv data st → ∀ s ∈ loopTraceF fuel data st, Inv data s := by
  intro fuel
  induction fuel with
  | zero =>
    intro data st h s hs
    simp only [loopTraceF, List.mem_singleton] at hs
    exact hs ▸ h
  | succ n ih =>
    intro data st h s hs
    by_cases hc : readChunk data st.nch = []
    · simp only [loopTraceF, if_pos hc, List.mem_singleton] at hs
      exact hs ▸ h
    · simp only [loopTraceF, if_neg hc, List.mem_cons] at hs
      rcases hs with rfl | hs
      · exact h
      · exact ih data _ (readStep_inv data st h hc).1 s hs

theorem readLoopF_grows_mono : ∀ (fuel : Nat) (data : List Nat) (st : LoopState),
    st.grows ≤ (readLoopF fuel data st).grows := by
  intro fuel
  induction fuel with
  | zero => intro data st; simp [readLoopF]
  | succ n ih =>
    intro data st
    by_cases hc : readChunk data st.nch = []
    · simp [readLoopF, hc]
    · simp only [readLoopF, if_neg hc]
      exact le_trans (readStep_grows_ge data st) (ih data _)

theorem readLoopF_grow_first (fuel : Nat) (data : List Nat) (st : LoopState)
    (hne : readChunk data st.nch ≠ [])
    (hg : st.size - (st.nch + (readChunk data st.nch).length) ≤ READ_SIZE) :
    st.grows + 1 ≤ (readLoopF (fuel + 1) data st).grows := by
  simp only [readLoopF, if_neg hne]
  calc st.grows + 1 = (readStep data st).grows := (readStep_grows_grow data st hg).symm
    _ ≤ _ := readLoopF_grows_mono fuel data _

theorem loopEventsF_no_finalize : ∀ (fuel : Nat) (data : List Nat) (st : LoopState),
    ∀ e ∈ loopEventsF fuel data st, isTermEv e = false ∧ isShrinkEv e = false := by
  intro fuel
  induction fuel with
  | zero => intro data st e he; simp [loopEventsF] at he
  | succ n ih =>
    intro data st e he
    by_cases hc : readChunk data st.nch = []
    · simp only [loopEventsF, if_pos hc, List.mem_singleton] at he
      exact he ▸ ⟨rfl, rfl⟩
    · simp only [loopEventsF, if_neg hc, List.mem_append] at he
      rcases he with he | he
      · unfold stepEvents at he
        split at he
        · simp only [List.mem_cons, List.mem_singleton, List.not_mem_nil] at he
          rcases he with rfl | rfl | he
          · exact ⟨rfl, rfl⟩
          · exact ⟨rfl, rfl⟩
          · exact absurd he (by simp)
        · simp only [List.mem_singleton] at he
          exact he ▸ ⟨rfl, rfl⟩
      · exact ih data _ e he

theorem readall_spec (data : List Nat) :
    readallLen data = data.length ∧ readall data = data ++ [0] := by
  obtain ⟨hinv, hn⟩ := readLoopF_inv (data.length + 1) data initState (inv_init data)
    (by rw [show initState.nch = 0 from rfl]; omega)
  have hbuf : (readallFinal data).buf.length = (readallFinal data).size := hinv.hbuf
  have hroom : (readallFinal data).nch + READ_SIZE < (readallFinal data).size := hinv.hroom
  have hpre : (readallFinal data).buf.take (readallFinal data).nch =
      data.take (readallFinal data).nch := hinv.hpre
  have hnch : (readallFinal data).nch = data.length := hn
  have hRS : 0 < READ_SIZE := by decide
  refine ⟨hnch, ?_⟩
  show writeBytes ((readallFinal data).buf.take ((readallFinal data).nch + 1))
      (readallFinal data).nch [0] = data ++ [0]
  unfold writeBytes
  rw [List.take_take, min_eq_left (by omega)]
  rw [hpre, hnch, List.take_length]
  rw [List.drop_eq_nil_of_le ?hle]
  case hle => simp only [List.length_take, List.length_cons, List.length_nil]; omega
  simp

theorem cstrView_append_zero (data : List Nat) (h : 0 ∉ data) :
    cstrView (data ++ [0]) = data := by
  induction data with
  | nil => rfl
  | cons a l ih =>
    have ha : (a != 0) = true := by
      have : a ≠ 0 := fun hz => h (hz ▸ List.mem_cons_self a l)
      simpa using this
    have h' : (0 : Nat) ∉ l := fun hm => h (List.mem_cons_of_mem a hm)
    simp only [cstrView, List.cons_append, List.takeWhile_cons, ha, if_true]
    exact congrArg (List.cons a) (ih h')

theorem readLoopF_proj : ∀ (fuel : Nat) (data : List Nat) (st : LoopState),
    ((readLoopF fuel data st).nch, (readLoopF fuel data st).size) =
      specLoopF fuel data.length st.nch st.size := by
  intro fuel
  induction fuel with
  | zero => intro data st; simp [readLoopF, specLoopF]
  | succ n ih =>
    intro data st
    have hlen := length_readChunk data st.nch
    by_cases hc : readChunk data st.nch = []
    · have h0 : min READ_SIZE (data.length - st.nch) = 0 := by rw [← hlen, hc]; rfl
      simp [readLoopF, hc, specLoopF, h0]
    · have h0 : ¬ min READ_SIZE (data.length - st.nch) = 0 := by
        rw [← hlen]
        simpa [List.length_eq_zero] using hc
      simp only [readLoopF, if_neg hc, specLoopF, if_neg h0]
      by_cases hg : st.size - (st.nch + (readChunk data st.nch).length) ≤ READ_SIZE
      · have hnch : (readStep data st).nch = st.nch + min READ_SIZE (data.length - st.nch) := by
          simp only [readStep, if_pos hg]
          rw [hlen]
        have hsz : (readStep data st).size = st.size * 2 := by
          simp only [readStep, if_pos hg]
        rw [if_pos (by rw [← hlen]; exact hg), ih data (readStep data st), hnch, hsz]
      · have hnch : (readStep data st).nch = st.nch + min READ_SIZE (data.length - st.nch) := by
          simp only [readStep, if_neg hg]
          rw [hlen]
        have hsz : (readStep data st).size = st.size := by
          simp only [readStep, if_neg hg]
        rw [if_neg (by rw [← hlen]; exact hg), ih data (readStep data st), hnch, hsz]

theorem loopEventsF_succ_grow (fuel : Nat) (data : List Nat) (st : LoopState)
    (hne : readChunk data st.nch ≠ [])
    (hg : st.size - (st.nch + (readChunk data st.nch).length) ≤ READ_SIZE) :
    loopEventsF (fuel + 1) data st =
      Ev.read (readChunk data st.nch).length :: Ev.grow (st.size * 2) ::
        loopEventsF fuel data (readStep data st) := by
  simp only [loopEventsF, if_neg hne, stepEvents, if_pos hg, List.cons_append,
    List.nil_append]

/-! ## The claims about the whole-file loader -/

/-- C1: For every file of size `S` (including `S = 0`), a successful call
of `readall` on that file returns a buffer whose logical length (bytes
read before the terminator) equals `S` and whose byte at offset `S` is the
NUL terminator; in particular a zero-byte file yields a buffer of logical
length 0 whose byte at offset 0 is the terminator. -/
theorem readall_length_and_terminator (data : List Nat) :
    readallLen data = data.length ∧
    (readall data).take data.length = data ∧
    (readall data)[data.length]? = some 0 ∧
    readallLen [] = 0 ∧ (readall [])[(0 : Nat)]? = some 0 := by
  obtain ⟨hl, hb⟩ := readall_spec data
  obtain ⟨hl0, hb0⟩ := readall_spec []
  refine ⟨hl, ?_, ?_, hl0, ?_⟩
  · rw [hb, List.take_left' rfl]
  · rw [hb]
    exact List.getElem?_concat_length data 0
  · rw [hb0]
    rfl

/-- C4: `readall` follows exactly the documented algorithm — starting from
an initial capacity of 4096 bytes it repeatedly reads chunks of up to 2048
bytes at the current write offset, accumulating the total bytes read;
after each read returning more than zero bytes, if the headroom (capacity
minus total) is at or below 2048 the capacity is doubled and the buffer
reallocated preserving the bytes already read; the loop stops at a
zero-byte read.  The code's loop state projects exactly onto the
specification's recurrence (`specLoader`), and the bytes already read are
preserved in the buffer. -/
theorem readall_follows_documented_algorithm (data : List Nat) :
    ((readallFinal data).nch, (readallFinal data).size) = specLoader data.length ∧
    (readallFinal data).buf.take (readallFinal data).nch =
      data.take (readallFinal data).nch := by
  constructor
  · exact readLoopF_proj (data.length + 1) data initState
  · exact (readLoopF_inv (data.length + 1) data initState (inv_init data)
      (by rw [show initState.nch = 0 from rfl]; omega)).1.hpre

/-- C5: for every file whose size is an exact multiple of the chunk size
(2048 bytes), the growth logic never under-allocates: at every loop-entry
state of the read loop the capacity strictly exceeds the logical length.
(The invariant in fact holds for files of any size.) -/
theorem growth_never_underallocates (data : List Nat)
    (hmul : data.length % READ_SIZE = 0) :
    ∀ s ∈ loopTrace data, s.nch < s.size := by
  intro s hs
  have h := loopTraceF_inv (data.length + 1) data initState (inv_init data) s hs
  have := h.hroom
  omega

/-- Witness for C5: the concrete file `replicate READ_SIZE 7`, whose size
2048 is a multiple of the chunk size. -/
theorem growth_never_underallocates_witness :
    (List.replicate READ_SIZE 7).length % READ_SIZE = 0 ∧
    ∀ s ∈ loopTrace (List.replicate READ_SIZE 7), s.nch < s.size :=
  ⟨by simp, growth_never_underallocates _ (by simp)⟩

/-- C10: in every execution of `readall`'s read loop, at the start of each
read the remaining headroom (capacity minus bytes read so far) strictly
exceeds the chunk size 2048, so every chunk write of up to 2048 bytes fits
inside the allocated buffer, and the terminator offset `nch` lies strictly
below the capacity that exists before the final shrink step. -/
theorem loop_writes_within_capacity (data : List Nat) :
    (∀ s ∈ loopTrace data,
        READ_SIZE < s.size - s.nch ∧
        s.buf.length = s.size ∧
        s.nch + (readChunk data s.nch).length ≤ s.size) ∧
    (readallFinal data).nch < (readallFinal data).size := by
  constructor
  · intro s hs
    have h := loopTraceF_inv (data.length + 1) data initState (inv_init data) s hs
    have h1 := h.hroom
    have h2 := h.hbuf
    have h3 := length_readChunk data s.nch
    exact ⟨by omega, h2, by omega⟩
  · have h := (readLoopF_inv (data.length + 1) data initState (inv_init data)
      (by rw [show initState.nch = 0 from rfl]; omega)).1.hroom
    show (readLoopF (data.length + 1) data initState).nch <
      (readLoopF (data.length + 1) data initState).size
    omega

/-- C3 counterexample: already at the concrete zero-byte file the claimed
ordering fails.  In `readall`'s event sequence, the shrinking `realloc`
(index 2) comes before the terminator write (index 3) — statik.c:57 runs
before statik.c:58 — so the conjunction "capacity ≥ length + 1, terminator
written exactly once immediately after the last byte read, and shrink-to-fit
only after the terminator is placed" is false as stated. -/
theorem shrink_after_terminator_refuted :
    ¬ ((∀ s ∈ loopTrace [], s.nch + 1 ≤ s.size) ∧
       (readallEvents []).filter isTermEv = [Ev.writeTerm (readallLen [])] ∧
       shrinkOnlyAfterTerm (readallEvents [])) := by
  rintro ⟨-, -, h⟩
  have hev : readallEvents [] =
      [Ev.alloc BUFFER_SIZE, Ev.read 0, Ev.shrink 1, Ev.writeTerm 0] := rfl
  obtain ⟨j, o, hj, hw⟩ := h 2 1 (by rw [hev]; rfl)
  rw [hev] at hw
  interval_cases j <;> simp at hw

/-- C3 (amended): in every execution of `readall`, capacity ≥ length + 1
holds at every loop-entry state and for the returned buffer; the
terminator byte is written exactly once, at offset `nch`, immediately
after the last byte read; and the shrink-to-fit of the capacity happens
immediately BEFORE (not after) the terminator is placed: the event
sequence ends with the shrink followed by the terminator write, neither
occurring anywhere earlier. -/
theorem capacity_terminator_shrink_order (data : List Nat) :
    (∀ s ∈ loopTrace data, s.nch + 1 ≤ s.size) ∧
    (readall data).length = readallLen data + 1 ∧
    (readallEvents data).filter isTermEv = [Ev.writeTerm (readallLen data)] ∧
    ∃ pre, readallEvents data =
        pre ++ [Ev.shrink (readallLen data + 1), Ev.writeTerm (readallLen data)] ∧
        pre.filter isTermEv = [] ∧ pre.filter isShrinkEv = [] := by
  have hRS : 0 < READ_SIZE := by decide
  obtain ⟨hl, hb⟩ := readall_spec data
  have hloop : ∀ e ∈ loopEventsF (data.length + 1) data initState,
      isTermEv e = false ∧ isShrinkEv e = false :=
    loopEventsF_no_finalize (data.length + 1) data initState
  refine ⟨?_, ?_, ?_, ?_⟩
  · intro s hs
    have h := loopTraceF_inv (data.length + 1) data initState (inv_init data) s hs
    have := h.hroom
    omega
  · rw [hb]
    simp [hl]
  · have h1 : (loopEventsF (data.length + 1) data initState).filter isTermEv = [] := by
      rw [List.filter_eq_nil_iff]
      intro e he
      simp [(hloop e he).1]
    simp [readallEvents, List.filter_append, h1, isTermEv]
  · refine ⟨Ev.alloc BUFFER_SIZE :: loopEventsF (data.length + 1) data initState, ?_, ?_, ?_⟩
    · simp [readallEvents]
    · rw [List.filter_eq_nil_iff]
      intro e he
      rcases List.mem_cons.mp he with rfl | he
      · simp [isTermEv]
      · simp [(hloop e he).1]
    · rw [List.filter_eq_nil_iff]
      intro e he
      rcases List.mem_cons.mp he with rfl | he
      · simp [isShrinkEv]
      · simp [(hloop e he).2]

/-- C6: a file whose size is exactly the initial capacity minus one (4095
bytes) triggers at least one capacity-doubling growth step before the
terminator is appended: the final loop state records at least one growth,
and the event sequence contains the doubling to 8192 with the terminator
write occurring after it. -/
theorem file_4095_triggers_growth (data : List Nat)
    (hlen : data.length = BUFFER_SIZE - 1) :
    1 ≤ (readallFinal data).grows ∧
    ∃ pre post, readallEvents data = pre ++ Ev.grow (BUFFER_SIZE * 2) :: post ∧
      Ev.writeTerm (readallLen data) ∈ post := by
  have hchunk : (readChunk data 0).length = READ_SIZE := by
    rw [length_readChunk, hlen]
    decide
  have hne : readChunk data 0 ≠ [] := by
    intro h
    rw [h] at hchunk
    exact absurd hchunk.symm (by decide)
  have hg0 : initState.size - (initState.nch + (readChunk data initState.nch).length) ≤
      READ_SIZE := by
    show BUFFER_SIZE - (0 + (readChunk data 0).length) ≤ READ_SIZE
    rw [hchunk]
    decide
  constructor
  · have h := readLoopF_grow_first data.length data initState hne hg0
    show 1 ≤ (readLoopF (data.length + 1) data initState).grows
    simpa [initState] using h
  · have hev := loopEventsF_succ_grow data.length data initState hne hg0
    refine ⟨[Ev.alloc BUFFER_SIZE, Ev.read (readChunk data initState.nch).length],
      loopEventsF data.length data (readStep data initState) ++
        [Ev.shrink (readallLen data + 1), Ev.writeTerm (readallLen data)], ?_, ?_⟩
    · show Ev.alloc BUFFER_SIZE ::
          (loopEventsF (data.length + 1) data initState ++
            [Ev.shrink (readallLen data + 1), Ev.writeTerm (readallLen data)]) = _
      rw [hev]
      simp [initState, List.cons_append, List.append_assoc]
    · simp

/-- Witness for C6: the concrete 4095-byte file `replicate (4096 - 1) 0`. -/
theorem file_4095_triggers_growth_witness :
    (List.replicate (BUFFER_SIZE - 1) 0).length = BUFFER_SIZE - 1 ∧
    (1 ≤ (readallFinal (List.replicate (BUFFER_SIZE - 1) 0)).grows ∧
     ∃ pre post, readallEvents (List.replicate (BUFFER_SIZE - 1) 0) =
         pre ++ Ev.grow (BUFFER_SIZE * 2) :: post ∧
       Ev.writeTerm (readallLen (List.replicate (BUFFER_SIZE - 1) 0)) ∈ post) :=
  ⟨by simp, file_4095_triggers_growth _ (by simp)⟩

/-- C2 counterexample: the length of the loaded data does not transfer to
the caller.  `readall` returns only a `char *`; the caller-visible content
of that return value is its C-string view, and no function of that view
recovers the byte count: the one-byte file `[0]` and the empty file yield
returns with the same C-string view but different logical lengths. -/
theorem length_not_returned_refuted :
    ¬ ∃ recover : List Nat → Nat,
        ∀ data : List Nat, recover (cstrView (readall data)) = readallLen data := by
  rintro ⟨f, hf⟩
  have h1 := hf [0]
  have h0 := hf []
  have e1 : cstrView (readall [0]) = [] := rfl
  have e0 : cstrView (readall []) = [] := rfl
  have l1 : readallLen [0] = 1 := rfl
  have l0 : readallLen [] = 0 := rfl
  rw [e1, l1] at h1
  rw [e0, l0] at h0
  omega

/-- C2 (amended): on every successful completion, ownership of the
finalized buffer transfers to the caller, but its logical length is not
returned alongside it; the length is recoverable from the returned buffer
(via the terminator, i.e. `strlen`) exactly for contents free of interior
NUL bytes, for which the C-string view of the return value equals the file
contents. -/
theorem readall_returns_buffer_only (data : List Nat) (h : 0 ∉ data) :
    cstrView (readall data) = data ∧
    (cstrView (readall data)).length = readallLen data := by
  obtain ⟨hl, hb⟩ := readall_spec data
  have hv : cstrView (readall data) = data := by
    rw [hb]
    exact cstrView_append_zero data h
  exact ⟨hv, by rw [hv, hl]⟩

/-- Witness for C2 (amended) at the concrete NUL-free contents `[72, 105]`. -/
theorem readall_returns_buffer_only_witness :
    (0 : Nat) ∉ [72, 105] ∧
    (cstrView (readall [72, 105]) = [72, 105] ∧
     (cstrView (readall [72, 105])).length = readallLen [72, 105]) :=
  ⟨by decide, readall_returns_buffer_only [72, 105] (by decide)⟩

/-! ## Helper lemmas about the command-line surface -/

theorem consumeOpts_append_unknown : ∀ (pre : List Opt) (cfg : Cfg) (c : Char)
    (rest : List Opt), (∀ o ∈ pre, isExiting o = false) →
    consumeOpts (pre ++ Opt.unknown c :: rest) cfg =
      Sum.inr ([OutEv.err (invalidOptDiag c), OutEv.out unknownFlagLine,
        OutEv.out usageLine], 1) := by
  intro pre
  induction pre with
  | nil => intro cfg c rest h; rfl
  | cons o pre ih =>
    intro cfg c rest h
    have ho := h o (List.mem_cons_self o pre)
    have h' : ∀ x ∈ pre, isExiting x = false :=
      fun x hx => h x (List.mem_cons_of_mem o hx)
    cases o with
    | flag d => simpa [consumeOpts] using ih _ c rest h'
    | optArg d a =>
      by_cases hd : d = 'b'
      · simpa [consumeOpts, hd] using ih _ c rest h'
      · simpa [consumeOpts, hd] using ih _ c rest h'
    | version => simp [isExiting] at ho
    | help => simp [isExiting] at ho
    | unknown d => simp [isExiting] at ho
    | missingArg d => simp [isExiting] at ho

theorem getoptAll_suffix : ∀ args : List Arg, ∃ pre, args = pre ++ (getoptAll args).2 := by
  intro args
  induction args using getoptAll.induct with
  | case1 => exact ⟨[], rfl⟩
  | case2 rest2 => exact ⟨[], rfl⟩
  | case3 rest2 => exact ⟨[['-', '-']], rfl⟩
  | case4 rest2 c cs hcc os hcl ih =>
    obtain ⟨pre, hpre⟩ := ih
    refine ⟨('-' :: c :: cs) :: pre, ?_⟩
    have h2 : (getoptAll (('-' :: c :: cs) :: rest2)).2 = (getoptAll rest2).2 := by
      simp only [getoptAll]
      split
      · simp
      · rename_i os2 oc2 heq
        rw [hcl] at heq
        simp at heq
    rw [h2, List.cons_append, ← hpre]
  | case5 c cs hcc os oc hcl =>
    refine ⟨['-' :: c :: cs], ?_⟩
    have h2 : (getoptAll [('-' :: c :: cs)]).2 = [] := by
      simp only [getoptAll]
      split
      · simp
      · simp
    rw [h2]
    simp
  | case6 c cs hcc os oc hcl b rest2 ih =>
    obtain ⟨pre, hpre⟩ := ih
    refine ⟨('-' :: c :: cs) :: b :: pre, ?_⟩
    have h2 : (getoptAll (('-' :: c :: cs) :: b :: rest2)).2 = (getoptAll rest2).2 := by
      simp only [getoptAll]
      split
      · rename_i os2 heq
        rw [hcl] at heq
        simp at heq
      · simp
    rw [h2, List.cons_append, List.cons_append, ← hpre]
  | case7 b rest2 h1 h2 h3 =>
    refine ⟨[], ?_⟩
    have hred : getoptAll (b :: rest2) = ([], b :: rest2) := by
      match b, h1, h2, h3 with
      | [], _, _, _ => rfl
      | c :: cs, h1, h2, h3 =>
        match cs, h1, h2, h3 with
        | [], h1, h2, h3 =>
          have hc : ¬ c = '-' := fun hh => h1 (by rw [hh])
          simp only [getoptAll]
        | c2 :: cs2, h1, h2, h3 =>
          have hc : ¬ c = '-' := fun hh => h3 c2 cs2 (by rw [hh])
          simp only [getoptAll]
    rw [hred]
    simp

/-! ## The claims about the command-line surface -/

/-- C7: whenever the `getopt` scan reaches an unknown flag `c` (no exiting
result precedes it), the program prints the offending flag character — in
`getopt`'s stderr diagnostic; `main`'s own line prints the returned `?` —
prints the usage text, and exits with failure status 1. -/
theorem unknown_flag_prints_and_fails (argv0 : Arg) (args : List Arg)
    (pre rest : List Opt) (c : Char)
    (hscan : (getoptAll args).1 = pre ++ Opt.unknown c :: rest)
    (hpre : ∀ o ∈ pre, isExiting o = false) :
    c ∈ outputChars (main (argv0 :: args)).evs ∧
    OutEv.out usageLine ∈ (main (argv0 :: args)).evs ∧
    (main (argv0 :: args)).code = 1 := by
  have hcc : consumeOpts (getoptAll args).1 initCfg =
      Sum.inr ([OutEv.err (invalidOptDiag c), OutEv.out unknownFlagLine,
        OutEv.out usageLine], 1) := by
    rw [hscan]
    exact consumeOpts_append_unknown pre initCfg c rest hpre
  have hmain : main (argv0 :: args) =
      ⟨[OutEv.err (invalidOptDiag c), OutEv.out unknownFlagLine,
        OutEv.out usageLine], 1, none⟩ := by
    simp only [main, List.drop_succ_cons, List.drop_zero, hcc]
  refine ⟨?_, ?_, ?_⟩
  · rw [hmain]
    simp [outputChars, evChars, invalidOptDiag]
  · rw [hmain]
    simp
  · rw [hmain]

/-- Witness for C7: the concrete argument vector `statik -x d`. -/
theorem unknown_flag_prints_and_fails_witness :
    (getoptAll [['-', 'x'], ['d']]).1 = [] ++ Opt.unknown 'x' :: [] ∧
    ('x' ∈ outputChars (main (['s'] :: [['-', 'x'], ['d']])).evs ∧
     OutEv.out usageLine ∈ (main (['s'] :: [['-', 'x'], ['d']])).evs ∧
     (main (['s'] :: [['-', 'x'], ['d']])).code = 1) :=
  ⟨rfl, unknown_flag_prints_and_fails ['s'] [['-', 'x'], ['d']] [] [] 'x' rfl
    (by simp)⟩

/-- C9: whenever `-v` is the first flag processed (the first `getopt`
result is `v`), the program prints the version identifier (integer, value
1) and exits with success status 0, regardless of any arguments after it
and without performing any file I/O. -/
theorem version_flag_first (argv0 : Arg) (args : List Arg) (os : List Opt)
    (h : (getoptAll args).1 = Opt.version :: os) :
    main (argv0 :: args) = ⟨[OutEv.out versionLine], 0, none⟩ ∧
    versionLine = "version: ".toList ++ Nat.toDigits 10 1 := by
  have hcc : consumeOpts (getoptAll args).1 initCfg =
      Sum.inr ([OutEv.out versionLine], 0) := by
    rw [h]
    rfl
  constructor
  · simp only [main, List.drop_succ_cons, List.drop_zero, hcc]
  · rfl

/-- Witness for C9: `statik -v -q zzz` (malformed arguments after `-v`). -/
theorem version_flag_first_witness :
    (getoptAll [['-', 'v'], ['-', 'q'], ['z']]).1 =
      Opt.version :: [Opt.unknown 'q'] ∧
    (main (['s'] :: [['-', 'v'], ['-', 'q'], ['z']]) =
        ⟨[OutEv.out versionLine], 0, none⟩ ∧
     versionLine = "version: ".toList ++ Nat.toDigits 10 1) :=
  ⟨rfl, version_flag_first ['s'] [['-', 'v'], ['-', 'q'], ['z']]
    [Opt.unknown 'q'] rfl⟩

/-- C8: when flag parsing completes, a positional count other than one or
two makes the program print the usage-error line to standard output
followed by the usage text and exit with failure status 1 without any file
I/O; with one positional `p`, `p` is the destination and the source
defaults to `"."`; with two positionals `p q`, `q` (the last) is the
destination and `p` (the first) is the source. -/
theorem positional_count_behavior (argv0 : Arg) (args : List Arg) (cfg : Cfg)
    (h : consumeOpts (getoptAll args).1 initCfg = Sum.inl cfg) :
    (((getoptAll args).2.length < 1 ∨ 2 < (getoptAll args).2.length) →
      main (argv0 :: args) =
        ⟨[OutEv.out wrongArgsLine, OutEv.out usageLine], 1, none⟩) ∧
    (∀ p, (getoptAll args).2 = [p] →
      main (argv0 :: args) = ⟨templateReads cfg, 0, some (cfg, defaultSrc, p)⟩) ∧
    (∀ p q, (getoptAll args).2 = [p, q] →
      main (argv0 :: args) = ⟨templateReads cfg, 0, some (cfg, p, q)⟩) := by
  obtain ⟨pre, hpre⟩ := getoptAll_suffix args
  refine ⟨?_, ?_, ?_⟩
  · intro hcnt
    simp only [main, List.drop_succ_cons, List.drop_zero, h]
    rw [if_pos (by tauto)]
  · intro p hp
    have hargs : args = pre ++ [p] := by rw [hp] at hpre; exact hpre
    have hdest : (argv0 :: args).reverse.headD [] = p := by
      rw [hargs]
      simp
    simp only [main, List.drop_succ_cons, List.drop_zero, h]
    rw [if_neg (by rw [hp]; simp), if_neg (by rw [hp]; simp), hdest]
  · intro p q hpq
    have hargs : args = pre ++ [p, q] := by rw [hpq] at hpre; exact hpre
    have hdest : (argv0 :: args).reverse.headD [] = q := by
      rw [hargs]
      simp
    have hsrc : ((argv0 :: args).reverse.drop 1).headD defaultSrc = p := by
      rw [hargs]
      simp
    simp only [main, List.drop_succ_cons, List.drop_zero, h]
    rw [if_neg (by rw [hpq]; simp), if_pos (by rw [hpq]; rfl), hdest, hsrc]

/-- Witness for C8: the concrete vector `statik a b c` (three positionals). -/
theorem positional_count_behavior_witness :
    consumeOpts (getoptAll [['a'], ['b'], ['c']]).1 initCfg = Sum.inl initCfg ∧
    ((((getoptAll [['a'], ['b'], ['c']]).2.length < 1 ∨
        2 < (getoptAll [['a'], ['b'], ['c']]).2.length) →
      main (['s'] :: [['a'], ['b'], ['c']]) =
        ⟨[OutEv.out wrongArgsLine, OutEv.out usageLine], 1, none⟩) ∧
     (∀ p, (getoptAll [['a'], ['b'], ['c']]).2 = [p] →
      main (['s'] :: [['a'], ['b'], ['c']]) =
        ⟨templateReads initCfg, 0, some (initCfg, defaultSrc, p)⟩) ∧
     (∀ p q, (getoptAll [['a'], ['b'], ['c']]).2 = [p, q] →
      main (['s'] :: [['a'], ['b'], ['c']]) =
        ⟨templateReads initCfg, 0, some (initCfg, p, q)⟩)) :=
  ⟨rfl, positional_count_behavior ['s'] [['a'], ['b'], ['c']] initCfg rfl⟩

end Statik
